import Mathlib

/-!
Verification of the crawl-and-materialize engine of notionSnapshot
(`notionsnapshot/__main__.py`) against its natural-language specification.

The source is shallowly embedded: strings are lists of characters, the
file system is a pair of flat file-name lists (output assets directory and
cross-run cache directory), the HTTP fetcher and the SHA-1 hash are
function parameters, and the Selenium driver world is a finite list of
toggle blocks / a finite link graph.  Each Python function of the engine
is translated into a Lean function of the same name.
-/

namespace NotionSnapshot

/-- Strings are modelled as lists of characters so that Python's
code-point level slicing and searching is exact. -/
abbrev Str := List Char

/-- `leads p s` = Python `s.startswith(p)` (is `p` a leading segment of `s`). -/
def leads : Str → Str → Bool
  | [], _ => true
  | _ :: _, [] => false
  | a :: as, b :: bs => if a = b then leads as bs else false

/-- Index of the first occurrence of `pat` inside `s`; Python `s.find(pat)`
restricted to found/not-found. -/
def findSub (pat : Str) : Str → Option Nat
  | [] => if pat = [] then some 0 else none
  | c :: rest => if leads pat (c :: rest) then some 0 else (findSub pat rest).map (· + 1)

/-- Python `pat in s` (substring containment). -/
def hasSub (pat s : Str) : Bool := (findSub pat s).isSome

/-- Everything of `s` strictly before the first occurrence of `pat`;
Python `s.split(pat)[0]` (the whole of `s` when `pat` does not occur). -/
def beforeFirst (pat s : Str) : Str :=
  match findSub pat s with
  | some i => s.take i
  | none => s

/-- Index of the last occurrence of `c` in `s`; Python `s.rfind(c)`
restricted to found/not-found. -/
def lastIdxOf (c : Char) : Str → Option Nat
  | [] => none
  | a :: as =>
    match lastIdxOf c as with
    | some i => some (i + 1)
    | none => if a = c then some 0 else none

/-- Everything of `s` strictly after the last occurrence of `c`;
Python `s.split(c)[-1]` (the whole of `s` when `c` does not occur). -/
def afterLastChar (c : Char) (s : Str) : Str :=
  match lastIdxOf c s with
  | some i => s.drop (i + 1)
  | none => s

/-- Python `s.split(c)` for a one-character separator. -/
def splitOnChar (c : Char) : Str → List Str
  | [] => [[]]
  | a :: as =>
    match splitOnChar c as with
    | [] => [[]]
    | h :: t => if a = c then [] :: h :: t else (a :: h) :: t

/-- Python `s.strip(c)`: remove every copy of `c` from both ends. -/
def stripChar (c : Char) (s : Str) : Str :=
  ((s.dropWhile (· = c)).reverse.dropWhile (· = c)).reverse

/-- Python `s.lower()` (adequate for the ASCII names this program builds). -/
def toLowerStr (s : Str) : Str := s.map Char.toLower

/-- Result of Python `urllib.parse.urlparse`, restricted to the fields the
program reads (`netloc`, `path`, `query`). -/
structure UrlParts where
  netloc : Str
  path : Str
  query : Str
deriving DecidableEq

/-- Models `urllib.parse.urlparse` for the absolute (`scheme://...`) and
path-only URLs this program handles: the netloc is what follows `://` up
to the first `/`, `?` or `#`; the path runs to the first `?` or `#`; the
query is what follows `?` (before any `#`). -/
def urlparse (s : Str) : UrlParts :=
  let rest :=
    match findSub (("://").toList) s with
    | some i => s.drop (i + 3)
    | none => []
  let netloc :=
    match findSub (("://").toList) s with
    | some _ => rest.takeWhile (fun c => ¬(c = '/' ∨ c = '?' ∨ c = '#'))
    | none => []
  let after :=
    match findSub (("://").toList) s with
    | some _ => rest.drop netloc.length
    | none => s
  let path := after.takeWhile (fun c => ¬(c = '?' ∨ c = '#'))
  let afterPath := after.drop path.length
  let query :=
    match afterPath with
    | '?' :: q => q.takeWhile (fun c => ¬(c = '#'))
    | _ => []
  ⟨netloc, path, query⟩

/-- One `key=value` segment of a query string, as accepted by
`urllib.parse.parse_qs` with its defaults: needs an `=`, drops blank
values (percent-decoding is not modelled; the URLs this program feeds in
are not percent-encoded). -/
def parsePair (part : Str) : Option (Str × Str) :=
  match findSub ['='] part with
  | none => none
  | some i =>
    let v := part.drop (i + 1)
    if v = [] then none else some (part.take i, v)

/-- Models `urllib.parse.parse_qs` as the ordered list of `key=value`
pairs of the query string. -/
def parseQs (q : Str) : List (Str × Str) :=
  (splitOnChar '&' q).filterMap parsePair

/-- Python `str(list_of_strings)`, e.g. `['200']`, as interpolated by the
f-string `f"?width={params['width']}"` (values are plain digit strings,
so the single-quote repr is exact). -/
def pyListRepr (vs : List Str) : Str :=
  '[' :: (List.intercalate ((", ").toList) (vs.map (fun v => '\'' :: v ++ ['\'']))) ++ [']']

/-- Models `str(pathlib.PurePosixPath(s))` followed by `.replace("\\", "/")`
for inputs that do not begin with a slash: consecutive slashes collapse,
`.` components and trailing slashes disappear, the empty path prints `.`. -/
def pyPathOfUrl (s : Str) : Str :=
  let comps := (splitOnChar '/' s).filter (fun c => c ≠ [] ∧ c ≠ ['.'])
  let joined := List.intercalate ['/'] comps
  let core := if leads ['/'] s then '/' :: joined else joined
  (if core = [] then ['.'] else core).map (fun c => if c = '\\' then '/' else c)

/-- `pathlib` suffix of a bare final path component: from the last dot,
empty for dotfiles and names ending in a dot. -/
def suffixChars (name : Str) : Str :=
  match lastIdxOf '.' name with
  | none => []
  | some i => if 0 < i ∧ i + 1 < name.length then name.drop i else []

/-- Python `Path(s).suffix`: the suffix of the final path component. -/
def pathSuffix (s : Str) : Str := suffixChars (afterLastChar '/' s)

/-- The final component of `s` without its suffix. -/
def stemOf (name : Str) : Str := name.take (name.length - (suffixChars name).length)

/-- Python `Path(s).with_suffix(sfx)` for a non-empty new suffix: `none`
models the `ValueError` raised when the suffix does not start with a dot,
is a bare dot, or contains a slash. -/
def with_suffix? (s sfx : Str) : Option Str :=
  if leads ['.'] sfx = true ∧ sfx ≠ ['.'] ∧ ('/' : Char) ∉ sfx then
    let name := afterLastChar '/' s
    let dir := s.take (s.length - name.length)
    some (dir ++ stemOf name ++ sfx)
  else none

/-- Python `os.path.split(s)[0]`: everything before the last slash, with
trailing slashes stripped unless the head is all slashes. -/
def osDirname (s : Str) : Str :=
  match lastIdxOf '/' s with
  | none => []
  | some i =>
    let head := s.take (i + 1)
    if head.all (· = '/') then head
    else (head.reverse.dropWhile (· = '/')).reverse

/-! ## FileManager (asset store) -/

/-- The file-system state the `FileManager` mutates: the flat list of
file names in the run's `snapshots/<name>/assets` directory, the flat
list of file names in the cross-run cache directory, and the
`cache_assets` flag. -/
structure FMState where
  assets : List Str
  cache : List Str
  cacheAssets : Bool
deriving DecidableEq

/-- Adding a file to a directory: overwriting an existing name leaves the
directory listing unchanged. -/
def addFile (f : Str) (files : List Str) : List Str :=
  if f ∈ files then files else files ++ [f]

/-- `glob.glob(dir + "/" + fname + ".*")` over a flat directory listing
for the dot-free hash names and extension-bearing hint names this program
generates: the files whose name is `fname`, a dot, and a non-empty or
empty remainder. -/
def globDotMatches (fname : Str) (files : List Str) : List Str :=
  files.filter (fun f => leads (fname ++ ['.']) f)

/-- The hash input of `FileManager.download_asset` when no filename hint
is given: `netloc + path`, plus `?width={params['width']}` when a `width`
query parameter is present (lines 62-67 of the source). -/
def hashInput (url : Str) : Str :=
  let p := urlparse url
  let queryless := p.netloc ++ p.path
  let widthVals := ((parseQs p.query).filter (fun kv => kv.1 = ("width").toList)).map (·.2)
  if widthVals = [] then queryless
  else queryless ++ (("?width=").toList) ++ pyListRepr widthVals

/-- The asset name `download_asset` resolves: the filename hint when one
is given, otherwise the hex digest (`hashFn`, modelling `hashlib.sha1`)
of the width-aware queryless URL. -/
def assetName (hashFn : Str → Str) (url fname0 : Str) : Str :=
  if fname0 = [] then hashFn (hashInput url) else fname0

/-- `FileManager._load_from_cache`: an exact-name cache lookup when the
hint carries a suffix, else a `fname.*` glob; a hit is copied into the
output assets directory and returned as `assets/<basename>`. -/
def load_from_cache (st : FMState) (fname : Str) : Option (Str × FMState) :=
  let cached :=
    if pathSuffix fname ≠ [] then st.cache.filter (fun f => f = fname)
    else globDotMatches fname st.cache
  match cached with
  | [] => none
  | c :: _ => some ((("assets/").toList) ++ c, { st with assets := addFile c st.assets })

/-- The suffix `download_asset` takes from the URL path, truncated at a
case-insensitive `%3f` (lines 87-91 of the source). -/
def urlSuffixTrim (url : Str) : Str :=
  let sfx := pathSuffix (urlparse url).path
  match findSub (("%3f").toList) (toLowerStr sfx) with
  | some i => sfx.take i
  | none => sfx

/-- `FileManager.download_asset`.  `fetch url` is the external GET:
`none` is a network error or non-success status, `some ctExt` is success
with `ctExt` the extension `mimetypes.guess_extension` derives from the
response content type (`none` when that lookup fails, which trips the
source's `assert`).  Every exception of the fetch/write block — including
the asserts and an invalid `with_suffix` — is caught and degrades to
`str(Path(url))`.  Returns the rewritten reference, the new file-system
state, and whether a fetch was attempted. -/
def download_asset (fetch : Str → Option (Option Str)) (hashFn : Str → Str)
    (st : FMState) (url fname0 : Str) : Str × FMState × Bool :=
  let fname := assetName hashFn url fname0
  match globDotMatches fname st.assets with
  | f :: _ => ((("assets/").toList) ++ f, st, false)
  | [] =>
    match (if st.cacheAssets then load_from_cache st fname else none) with
    | some pr => (pr.1, pr.2, false)
    | none =>
      match fetch url with
      | none => (pyPathOfUrl url, st, true)
      | some ctExt =>
        let destRes : Option Str :=
          if pathSuffix fname = [] then
            if pathSuffix (urlparse url).path ≠ [] then with_suffix? fname (urlSuffixTrim url)
            else
              match ctExt with
              | none => none
              | some m => with_suffix? fname m
          else some fname
        match destRes with
        | none => (pyPathOfUrl url, st, true)
        | some dest => ((("assets/").toList) ++ dest, { st with assets := addFile dest st.assets }, true)

/-- `FileManager.get_filename_from_url`: drop the path's leading slash,
cut at the last hyphen (Python `id[:id.rfind("-")]`, which cuts the last
character when there is no hyphen), lowercase, append `.html`; the root
URL is always named `index.html`. -/
def get_filename_from_url (selfUrl url : Str) : Str :=
  let id := (urlparse url).path.drop 1
  let cut :=
    match lastIdxOf '-' id with
    | some i => id.take i
    | none => id.take (id.length - 1)
  let filename := toLowerStr cut ++ (".html").toList
  if url = selfUrl then (("index.html").toList) else filename

/-! ## Traversal controller (`Scraper.run`) -/

/-- The frontier state of `Scraper.run`: the pending set `will_visit` and
the `visited` set, over a finite universe of `n` URLs. -/
structure ScraperState (n : Nat) where
  will_visit : Finset (Fin n)
  visited : Finset (Fin n)
deriving DecidableEq

/-- One iteration of the `while self.will_visit` loop body for the popped
URL `u`: `u` is removed from the pending set and added to `visited`, and
every link of the saved page not already visited joins the pending set
(lines 163-179 of the source; `links u` is what `_link_to_subpages`
returns for the page at `u`). -/
def stepScrape {n : Nat} (links : Fin n → Finset (Fin n)) (s : ScraperState n) (u : Fin n) :
    ScraperState n :=
  let visited' := insert u s.visited
  { will_visit := (s.will_visit.erase u) ∪ (links u).filter (fun p => p ∉ visited'),
    visited := visited' }

/-- The `Scraper.run` loop with `fuel` remaining iterations, popping the
least pending URL (Python's `set.pop` order is arbitrary; the invariants
proved below do not depend on the choice).  Returns the list of URLs
visited-and-persisted, in order, and the final state. -/
def runAux {n : Nat} (links : Fin n → Finset (Fin n)) :
    Nat → ScraperState n → List (Fin n) × ScraperState n
  | 0, s => ([], s)
  | fuel + 1, s =>
    if h : s.will_visit.Nonempty then
      let u := s.will_visit.min' h
      let r := runAux links fuel (stepScrape links s u)
      (u :: r.1, r.2)
    else ([], s)

/-! ## Link rewriter (`Scraper._link_to_subpages`) -/

/-- An `<a>` element as the link rewriter sees it: its `href`, tag name,
class list, optional inline style, the inline styles of its styled
descendants, and whether it sits inside a `notion-scroller` ancestor. -/
structure Anchor where
  href : Option Str
  tag : Str
  classes : List Str
  style : Option (List (Str × Str))
  descStyles : List (List (Str × Str))
  inScroller : Bool
deriving DecidableEq

/-- `cssutils` setting `style["cursor"] = "default"`: update the property
in place, or append it when absent. -/
def setCursorDefault (style : List (Str × Str)) : List (Str × Str) :=
  if style.any (fun kv => kv.1 = ("cursor").toList) then
    style.map (fun kv => if kv.1 = ("cursor").toList then (kv.1, ("default").toList) else kv)
  else style ++ [((("cursor").toList), (("default").toList))]

/-- The workspace domain of line 395:
`self.url.split("notion.site")[0] + "notion.site"`. -/
def notionDomain (selfUrl : Str) : Str :=
  beforeFirst (("notion.site").toList) selfUrl ++ (("notion.site").toList)

/-- Resolution of a relative href (lines 400-402): a leading-slash href
becomes `domain + "/" + href.split("/")[-1]`. -/
def resolveHref (domain h : Str) : Str :=
  if leads ['/'] h then domain ++ '/' :: afterLastChar '/' h else h

/-- The body of the `for a in anchors` loop of `_link_to_subpages` for one
anchor (lines 397-430): external URLs are skipped by `continue`,
fragment URLs become in-page `#` links, scroller-contained URLs are
rewritten to the local filename and collected, and the rest are
deactivated (href deleted, tag demoted to `span`, every styled element
forced to `cursor: default`). -/
def link_to_subpages_anchor (selfUrl : Str) (a : Anchor) : Anchor × List Str :=
  match a.href with
  | none => (a, [])
  | some h =>
    let domain := notionDomain selfUrl
    let url := resolveHref domain h
    if leads domain url then
      if hasSub ['#'] url then
        ({ a with href := some ('#' :: afterLastChar '#' url),
                  classes := a.classes ++ [(("notionsnapshot-anchor-link").toList)] }, [])
      else if a.inScroller then
        ({ a with href := some (get_filename_from_url selfUrl url) }, [url])
      else
        ({ a with href := none, tag := ("span").toList,
                  style := a.style.map setCursorDefault,
                  descStyles := a.descStyles.map setCursorDefault }, [])
    else (a, [])

/-- `Scraper._link_to_subpages` over the document's anchor list: each
anchor is rewritten independently and the discovered subpage URLs are
concatenated in order. -/
def link_to_subpages (selfUrl : Str) (anchors : List Anchor) : List Anchor × List Str :=
  (anchors.map (fun a => (link_to_subpages_anchor selfUrl a).1),
   (anchors.map (fun a => (link_to_subpages_anchor selfUrl a).2)).flatten)

/-- The URL the classification of `_link_to_subpages` runs on: the href
after relative-URL resolution. -/
def resolvedLinkUrl (selfUrl h : Str) : Str := resolveHref (notionDomain selfUrl) h

/-- Branch guard of the `continue` at lines 404-406: the resolved URL does
not start with the workspace domain. -/
def isExternalLink (selfUrl h : Str) : Bool :=
  !(leads (notionDomain selfUrl) (resolvedLinkUrl selfUrl h))

/-- Branch guard of the table-of-contents rewrite (lines 411-416). -/
def isTocLink (selfUrl h : Str) : Bool :=
  leads (notionDomain selfUrl) (resolvedLinkUrl selfUrl h)
    && hasSub ['#'] (resolvedLinkUrl selfUrl h)

/-- Branch guard of the internal-subpage rewrite (lines 418-422). -/
def isSubpageLink (selfUrl h : Str) (insc : Bool) : Bool :=
  leads (notionDomain selfUrl) (resolvedLinkUrl selfUrl h)
    && !hasSub ['#'] (resolvedLinkUrl selfUrl h) && insc

/-- Branch guard of the deactivation fallback (lines 423-430). -/
def isDeadLink (selfUrl h : Str) (insc : Bool) : Bool :=
  leads (notionDomain selfUrl) (resolvedLinkUrl selfUrl h)
    && !hasSub ['#'] (resolvedLinkUrl selfUrl h) && !insc

/-! ## Disclosure expander (`Scraper._expand_toggle_blocks`) -/

/-- A toggle block in the live document: its stable identity, the block
it is nested under (children of a collapsed block are absent from the
DOM), whether its chevron is already rotated (`(180deg)`), and whether
waiting for its content would time out. -/
structure ToggleBlock where
  id : Nat
  parent : Option Nat
  expanded : Bool
  timesOut : Bool
deriving DecidableEq

/-- A block is in the DOM when it is top-level or its parent block is
expanded. -/
def parentExpanded (w : List ToggleBlock) (b : ToggleBlock) : Bool :=
  match b.parent with
  | none => true
  | some p =>
    match w.find? (fun x => x.id = p) with
    | some pb => pb.expanded
    | none => true

/-- `get_toggle_blocks()`: the toggle blocks currently present in the DOM. -/
def get_toggle_blocks (w : List ToggleBlock) : List ToggleBlock :=
  w.filter (parentExpanded w)

/-- Clicking block `bid`'s button and having its content load: the block
becomes expanded. -/
def expandBlock (w : List ToggleBlock) (bid : Nat) : List ToggleBlock :=
  w.map (fun b => if b.id = bid then { b with expanded := true } else b)

/-- One step of the `for block in toggle_blocks` loop (lines 241-251):
an already-expanded block is recorded directly; a collapsed block is
clicked, and on timeout the `continue` skips the recording, otherwise it
expands and is recorded.  The third component records every click. -/
def passStep (s : List ToggleBlock × List Nat × List Nat) (b : ToggleBlock) :
    List ToggleBlock × List Nat × List Nat :=
  if b.expanded then (s.1, s.2.1 ++ [b.id], s.2.2)
  else if b.timesOut then (s.1, s.2.1, s.2.2 ++ [b.id])
  else (expandBlock s.1 b.id, s.2.1 ++ [b.id], s.2.2 ++ [b.id])

/-- One pass of `_expand_toggle_blocks`: process every block found now
and not yet recorded in `expanded_toggle_blocks` (`acc`). -/
def expand_pass (w : List ToggleBlock) (acc clicks : List Nat) :
    List ToggleBlock × List Nat × List Nat :=
  ((get_toggle_blocks w).filter (fun b => ¬ acc.contains b.id)).foldl passStep (w, acc, clicks)

/-- `Scraper._expand_toggle_blocks` with its recursion made explicit:
after a pass, re-enumerate; recurse while some discovered block is not
recorded as expanded.  `none` models non-termination within `fuel`
recursive passes. -/
def expand_toggle_blocks (fuel : Nat) (w : List ToggleBlock) (acc clicks : List Nat) :
    Option (List ToggleBlock × List Nat × List Nat) :=
  match fuel with
  | 0 => none
  | fuel + 1 =>
    let r := expand_pass w acc clicks
    let nested := (get_toggle_blocks r.1).filter (fun b => ¬ r.2.1.contains b.id)
    if nested.isEmpty then some r
    else expand_toggle_blocks fuel r.1 r.2.1 r.2.2

/-! ## Image pipeline (`Scraper._download_images`, non-emoji images) -/

/-- One step of the `for img in images` loop of `_download_images`
(lines 288-296) on one non-emoji `src` value: data URLs are kept
(prefixed for notion assets), every other reference is replaced by what
`download_asset` returns. -/
def imageStep (fetch : Str → Option (Option Str)) (hashFn : Str → Str)
    (s : List Str × FMState) (src : Str) : List Str × FMState :=
  let is_notion := leads ['/'] src
  if ¬ hasSub (("data:image").toList) src then
    let u := if is_notion then (("https://www.notion.so").toList) ++ src else src
    let r := download_asset fetch hashFn s.2 u []
    (s.1 ++ [r.1], r.2.1)
  else if is_notion then (s.1 ++ [(("https://www.notion.so").toList) ++ src], s.2)
  else (s.1 ++ [src], s.2)

/-- `Scraper._download_images` over the list of non-emoji image `src`
values of the document. -/
def download_images (fetch : Str → Option (Option Str)) (hashFn : Str → Str)
    (st : FMState) (srcs : List Str) : List Str × FMState :=
  srcs.foldl (imageStep fetch hashFn) ([], st)

/-! ## Stylesheet font-face processing (`Scraper._download_stylesheets`) -/

/-- One repetition of the regex group `(/?https:/www.notion.so)`
(dots matched literally, as in every URL this program meets). -/
def dropNotionRep? (s : Str) : Option Str :=
  if leads (("/https:/www.notion.so").toList) s then some (s.drop 21)
  else if leads (("https:/www.notion.so").toList) s then some (s.drop 20)
  else none

/-- The `(.+?)\).*` tail of the font regex: the shortest non-empty prefix
of `rest` that is followed by a closing parenthesis. -/
def matchTail? (rest : Str) : Option Str :=
  match rest with
  | [] => none
  | c :: cs =>
    match cs.findIdx? (fun x => x = ')') with
    | none => none
    | some i => some (c :: cs.take i)

/-- The starred prefix with the regex engine's greedy-then-backtrack
order: try one more repetition first, fall back to matching the tail
here. -/
def matchReps : Nat → Str → Option Str
  | 0, r => matchTail? r
  | n + 1, r =>
    match dropNotionRep? r with
    | some r' =>
      match matchReps n r' with
      | some g => some g
      | none => matchTail? r
    | none => matchTail? r

/-- `re.match(r"url\((/?https:/www.notion.so)*(.+?)\).*", s)` restricted
to its second capture group (line 328 of the source). -/
def fontUrlMatch (s : Str) : Option Str :=
  if leads (("url(").toList) s then matchReps s.length (s.drop 4) else none

/-- Recursion core of `remove_assets_sub`: the fuel only bounds the
recursion depth (one unit per character consumed) and is never exhausted
when it starts at the input length. -/
def remove_assets_go : Nat → Str → Str
  | 0, s => s
  | _ + 1, [] => []
  | fuel + 1, c :: cs =>
    if leads (("assets/").toList) (c :: cs) then remove_assets_go fuel (cs.drop 6)
    else c :: remove_assets_go fuel cs

/-- `re.sub(r"assets/", "", s)`: delete every occurrence of `assets/`. -/
def remove_assets_sub (s : Str) : Str := remove_assets_go (s.length + 1) s

/-- The font-face handling of one `@font-face` rule inside
`_download_stylesheets` (lines 328-341): a regex mismatch raises
`ValueError` (modelled as `Except.error`), otherwise the font file is
resolved against the stylesheet's directory and localized with
`download_asset`, and the rule's `src` is rewritten to the returned
path. -/
def process_font_face_rule (fetch : Str → Option (Option Str)) (hashFn : Str → Str)
    (st : FMState) (linkHref srcVal : Str) : Except Str (Str × FMState) :=
  match fontUrlMatch srcVal with
  | none => Except.error (("Could not parse stylesheet source of font face rule").toList)
  | some g2 =>
    let font_file := remove_assets_sub g2
    let parent_css_path := osDirname (urlparse linkHref).path
    let parts :=
      ([(("https://www.notion.so").toList), parent_css_path, font_file].map
        (stripChar '/')).filter (fun p => p ≠ [])
    let font_download_url := List.intercalate ['/'] parts
    let r := download_asset fetch hashFn st font_download_url (afterLastChar '/' font_file)
    Except.ok ((("url(").toList) ++ r.1 ++ [')'], r.2.1)

/-! ## Basic lemmas about the string helpers -/

theorem leads_append (a b c : Str) : leads (a ++ b) (a ++ c) = leads b c := by
  induction a with
  | nil => rfl
  | cons x xs ih => simp [leads, ih]

theorem lastIdxOf_none_iff (c : Char) (l : Str) : lastIdxOf c l = none ↔ c ∉ l := by
  induction l with
  | nil => simp [lastIdxOf]
  | cons a as ih =>
    cases h' : lastIdxOf c as with
    | some i =>
      have hmem : c ∈ as := by
        by_contra hc
        rw [ih.mpr hc] at h'
        exact Option.noConfusion h'
      simp only [lastIdxOf, h', List.mem_cons]
      constructor
      · intro hcontra
        exact Option.noConfusion hcontra
      · intro hno
        exact absurd (Or.inr hmem) hno
    | none =>
      have hnm : c ∉ as := ih.mp h'
      by_cases hac : a = c
      · subst hac
        simp [lastIdxOf, h']
      · simp only [lastIdxOf, h', if_neg hac, List.mem_cons]
        constructor
        · intro _ hmem
          rcases hmem with hh | hh
          · exact hac hh.symm
          · exact hnm hh
        · intro _
          trivial

theorem lastIdxOf_drop (c : Char) (l : Str) (i : Nat) (h : lastIdxOf c l = some i) :
    l.drop i = c :: l.drop (i + 1) ∧ i < l.length := by
  induction l generalizing i with
  | nil => exact Option.noConfusion h
  | cons a as ih =>
    cases h' : lastIdxOf c as with
    | some j =>
      simp only [lastIdxOf, h'] at h
      cases h
      obtain ⟨hd, hl⟩ := ih j h'
      constructor
      · simpa using hd
      · simpa using Nat.succ_lt_succ hl
    | none =>
      simp only [lastIdxOf, h'] at h
      by_cases hac : a = c
      · rw [if_pos hac] at h
        cases h
        subst hac
        exact ⟨by simp, by simp⟩
      · rw [if_neg hac] at h
        exact Option.noConfusion h

theorem lastIdxOf_last (c : Char) (l : Str) (i : Nat) (h : lastIdxOf c l = some i) :
    c ∉ l.drop (i + 1) := by
  induction l generalizing i with
  | nil => exact Option.noConfusion h
  | cons a as ih =>
    cases h' : lastIdxOf c as with
    | some j =>
      simp only [lastIdxOf, h'] at h
      cases h
      simpa using ih j h'
    | none =>
      simp only [lastIdxOf, h'] at h
      by_cases hac : a = c
      · rw [if_pos hac] at h
        cases h
        simpa using (lastIdxOf_none_iff c as).mp h'
      · rw [if_neg hac] at h
        exact Option.noConfusion h

theorem afterLastChar_not_mem (c : Char) (s : Str) : c ∉ afterLastChar c s := by
  unfold afterLastChar
  cases h : lastIdxOf c s with
  | some i => exact lastIdxOf_last c s i h
  | none => exact (lastIdxOf_none_iff c s).mp h

theorem afterLastChar_of_not_mem (c : Char) (s : Str) (h : c ∉ s) : afterLastChar c s = s := by
  simp [afterLastChar, (lastIdxOf_none_iff c s).mpr h]

theorem suffixChars_shape (name : Str) (h : suffixChars name ≠ []) :
    ∃ r, suffixChars name = '.' :: r ∧ r ≠ [] ∧ ∀ x ∈ suffixChars name, x ∈ name := by
  cases hidx : lastIdxOf '.' name with
  | none => simp [suffixChars, hidx] at h
  | some i =>
    simp only [suffixChars, hidx] at h ⊢
    by_cases hcond : 0 < i ∧ i + 1 < name.length
    · rw [if_pos hcond] at h ⊢
      obtain ⟨hd, _⟩ := lastIdxOf_drop '.' name i hidx
      refine ⟨name.drop (i + 1), hd, ?_, fun x hx => List.mem_of_mem_drop hx⟩
      intro hnil
      have hle : name.length ≤ i + 1 := List.drop_eq_nil_iff.mp hnil
      omega
    · rw [if_neg hcond] at h
      exact absurd rfl h

/-! ## C1: frontier invariants of the traversal controller -/

theorem stepScrape_disjoint {n : Nat} (links : Fin n → Finset (Fin n)) (s : ScraperState n)
    (u : Fin n) (h : Disjoint s.will_visit s.visited) :
    Disjoint (stepScrape links s u).will_visit (stepScrape links s u).visited := by
  simp only [stepScrape]
  rw [Finset.disjoint_left]
  intro x hx
  simp only [Finset.mem_union, Finset.mem_erase, Finset.mem_filter] at hx
  rcases hx with ⟨hxu, hxw⟩ | ⟨_, hxn⟩
  · intro hxv
    rcases Finset.mem_insert.mp hxv with rfl | hv
    · exact hxu rfl
    · exact (Finset.disjoint_left.mp h hxw) hv
  · exact hxn

theorem runAux_disjoint {n : Nat} (links : Fin n → Finset (Fin n)) (k : Nat)
    (s : ScraperState n) (h : Disjoint s.will_visit s.visited) :
    Disjoint (runAux links k s).2.will_visit (runAux links k s).2.visited := by
  induction k generalizing s with
  | zero => simpa [runAux]
  | succ k ih =>
    by_cases hne : s.will_visit.Nonempty
    · simp only [runAux, dif_pos hne]
      exact ih _ (stepScrape_disjoint links s _ h)
    · simpa [runAux, dif_neg hne]

theorem runAux_nodup_aux {n : Nat} (links : Fin n → Finset (Fin n)) (k : Nat)
    (s : ScraperState n) (h : Disjoint s.will_visit s.visited) :
    (runAux links k s).1.Nodup ∧ ∀ v ∈ s.visited, v ∉ (runAux links k s).1 := by
  induction k generalizing s with
  | zero => simp [runAux]
  | succ k ih =>
    by_cases hne : s.will_visit.Nonempty
    · have hu : s.will_visit.min' hne ∈ s.will_visit := Finset.min'_mem _ _
      have hunv : s.will_visit.min' hne ∉ s.visited := Finset.disjoint_left.mp h hu
      obtain ⟨h1, h2⟩ := ih _ (stepScrape_disjoint links s (s.will_visit.min' hne) h)
      constructor
      · simp only [runAux, dif_pos hne, List.nodup_cons]
        exact ⟨h2 _ (by simp [stepScrape]), h1⟩
      · intro v hv
        simp only [runAux, dif_pos hne, List.mem_cons, not_or]
        exact ⟨fun he => hunv (he ▸ hv), h2 v (by simp [stepScrape, hv])⟩
    · simp [runAux, dif_neg hne]

theorem runAux_terminates {n : Nat} (links : Fin n → Finset (Fin n)) (k : Nat)
    (s : ScraperState n) (h : Disjoint s.will_visit s.visited)
    (hk : n - s.visited.card ≤ k) : (runAux links k s).2.will_visit = ∅ := by
  induction k generalizing s with
  | zero =>
    have hle : s.visited.card ≤ n := by
      simpa using Finset.card_le_card (Finset.subset_univ s.visited)
    have hcard : s.visited.card = n := by omega
    have huniv : s.visited = Finset.univ := Finset.eq_univ_of_card _ (by simpa using hcard)
    apply Finset.eq_empty_of_forall_not_mem
    intro x hx
    exact (Finset.disjoint_left.mp h hx) (huniv ▸ Finset.mem_univ x)
  | succ k ih =>
    by_cases hne : s.will_visit.Nonempty
    · have hu : s.will_visit.min' hne ∈ s.will_visit := Finset.min'_mem _ _
      have hunv : s.will_visit.min' hne ∉ s.visited := Finset.disjoint_left.mp h hu
      have hcard : (stepScrape links s (s.will_visit.min' hne)).visited.card
          = s.visited.card + 1 := by
        simp [stepScrape, Finset.card_insert_of_not_mem hunv]
      simp only [runAux, dif_pos hne]
      exact ih _ (stepScrape_disjoint links s _ h) (by omega)
    · have : s.will_visit = ∅ := Finset.not_nonempty_iff_eq_empty.mp hne
      simpa [runAux, dif_neg hne]

theorem runAux_trace_nil_iff {n : Nat} (links : Fin n → Finset (Fin n)) (fuel : Nat)
    (s : ScraperState n) : (runAux links (fuel + 1) s).1 = [] ↔ s.will_visit = ∅ := by
  by_cases hne : s.will_visit.Nonempty
  · simp [runAux, dif_pos hne, Finset.nonempty_iff_ne_empty.mp hne]
  · simp [runAux, dif_neg hne, Finset.not_nonempty_iff_eq_empty.mp hne]

/-- C1: starting `Scraper.run` from a root URL, the visit trace has no
duplicates (no URL is processed and persisted twice), every reachable
loop state keeps `will_visit` and `visited` disjoint, the loop empties
the pending set within `n` iterations over a universe of `n` URLs, and an
iteration of the loop happens exactly when the pending set is non-empty. -/
theorem scraper_frontier_invariants (n : Nat) (links : Fin n → Finset (Fin n)) (r : Fin n) :
    ((runAux links n ⟨{r}, ∅⟩).1).Nodup
    ∧ (∀ k : Nat, Disjoint ((runAux links k ⟨{r}, ∅⟩).2.will_visit)
        ((runAux links k ⟨{r}, ∅⟩).2.visited))
    ∧ (runAux links n ⟨{r}, ∅⟩).2.will_visit = ∅
    ∧ ∀ (fuel : Nat) (s : ScraperState n),
        ((runAux links (fuel + 1) s).1 = [] ↔ s.will_visit = ∅) := by
  have hd : Disjoint ({r} : Finset (Fin n)) (∅ : Finset (Fin n)) := by simp
  exact ⟨(runAux_nodup_aux links n _ hd).1, fun k => runAux_disjoint links k _ hd,
    runAux_terminates links n _ hd (by simp), runAux_trace_nil_iff links⟩

/-! ## C9: the root URL persists as index.html; a leaf root visits once -/

theorem runAux_of_empty {n : Nat} (links : Fin n → Finset (Fin n)) (k : Nat)
    (s : ScraperState n) (h : s.will_visit = ∅) : runAux links k s = ([], s) := by
  cases k with
  | zero => rfl
  | succ k =>
    have hne : ¬ s.will_visit.Nonempty := by simp [h]
    simp [runAux, dif_neg hne]

/-- C9: `get_filename_from_url` maps the root URL to `index.html` whatever
its derived name would be, and a run whose root page links to nothing
persists exactly one document (the root) and adds nothing to the
frontier. -/
theorem root_is_index_and_leaf_run (selfUrl : Str) (n : Nat) (links : Fin n → Finset (Fin n))
    (r : Fin n) (k : Nat) (hr : links r = ∅) :
    get_filename_from_url selfUrl selfUrl = ("index.html").toList
    ∧ (runAux links (k + 1) ⟨{r}, ∅⟩).1 = [r]
    ∧ (runAux links (k + 1) ⟨{r}, ∅⟩).2.will_visit = ∅
    ∧ (runAux links (k + 1) ⟨{r}, ∅⟩).2.visited = {r} := by
  have hne : ({r} : Finset (Fin n)).Nonempty := ⟨r, Finset.mem_singleton_self r⟩
  have hmin : (⟨{r}, ∅⟩ : ScraperState n).will_visit.min' hne = r := Finset.min'_singleton r
  have hstep : stepScrape links ⟨{r}, ∅⟩ r = ⟨∅, {r}⟩ := by
    simp [stepScrape, hr, Finset.erase_singleton]
  have hrest := runAux_of_empty links k (⟨∅, {r}⟩ : ScraperState n) rfl
  refine ⟨by simp [get_filename_from_url], ?_, ?_, ?_⟩ <;>
    simp [runAux, dif_pos hne, hmin, hstep, hrest]

theorem root_is_index_and_leaf_run_witness :
    ((fun _ : Fin 1 => (∅ : Finset (Fin 1))) 0 = ∅)
    ∧ (get_filename_from_url (("https://x.notion.site/Page-abc123").toList)
          (("https://x.notion.site/Page-abc123").toList) = ("index.html").toList
      ∧ (runAux (fun _ : Fin 1 => (∅ : Finset (Fin 1))) 1 ⟨{0}, ∅⟩).1 = [0]
      ∧ (runAux (fun _ : Fin 1 => (∅ : Finset (Fin 1))) 1 ⟨{0}, ∅⟩).2.will_visit = ∅
      ∧ (runAux (fun _ : Fin 1 => (∅ : Finset (Fin 1))) 1 ⟨{0}, ∅⟩).2.visited = {0}) :=
  ⟨rfl, root_is_index_and_leaf_run _ 1 _ 0 0 rfl⟩

/-! ## C10: filename derivation for hyphen-free paths -/

/-- C10: for a non-root URL whose path has no hyphen, `rfind` returns -1
and `id[:-1]` silently cuts the final character: the derived filename is
the path without its leading slash and last character, lowercased, plus
`.html`. -/
theorem filename_truncates_without_hyphen (selfUrl url : Str)
    (hne : url ≠ selfUrl)
    (hnoh : ('-' : Char) ∉ (urlparse url).path.drop 1) :
    get_filename_from_url selfUrl url
      = toLowerStr (((urlparse url).path.drop 1).dropLast) ++ (".html").toList := by
  have hidx : lastIdxOf '-' ((urlparse url).path.drop 1) = none :=
    (lastIdxOf_none_iff _ _).mpr hnoh
  have htake : ((urlparse url).path.drop 1).take (((urlparse url).path.drop 1).length - 1)
      = ((urlparse url).path.drop 1).dropLast := by
    rw [List.dropLast_eq_take]
  simp only [get_filename_from_url, hidx, if_neg hne]
  rw [htake]

theorem filename_truncates_without_hyphen_witness :
    (("https://x.notion.site/abc").toList ≠ ("https://x.notion.site/Root-1").toList)
    ∧ (('-' : Char) ∉ (urlparse (("https://x.notion.site/abc").toList)).path.drop 1)
    ∧ get_filename_from_url (("https://x.notion.site/Root-1").toList)
          (("https://x.notion.site/abc").toList)
        = toLowerStr (((urlparse (("https://x.notion.site/abc").toList)).path.drop 1).dropLast)
            ++ (".html").toList :=
  ⟨by decide, by decide,
    filename_truncates_without_hyphen _ _ (by decide) (by decide)⟩

/-! ## C8: the width query parameter discriminates hash names -/

/-- C8: with no filename hint, the asset name is the hash of the
queryless URL with the `width` parameter folded back in: the same image
URL with `width=200` and `width=400` resolves to distinct asset names
(for an injective digest), while differing only in another query
parameter yields the same name. -/
theorem width_parameter_discriminates (hashFn : Str → Str)
    (hinj : Function.Injective hashFn) :
    assetName hashFn (("https://x.com/a.png?width=200").toList) []
      ≠ assetName hashFn (("https://x.com/a.png?width=400").toList) []
    ∧ assetName hashFn (("https://x.com/a.png?width=200&token=aaa").toList) []
      = assetName hashFn (("https://x.com/a.png?width=200&sig=bbb").toList) []
    ∧ ∀ url : Str, assetName hashFn url [] = hashFn (hashInput url) := by
  refine ⟨?_, ?_, fun url => rfl⟩
  · intro h
    simp only [assetName, if_pos rfl] at h
    exact absurd (hinj h) (by decide)
  · exact congrArg hashFn (by decide)

theorem width_parameter_discriminates_witness :
    Function.Injective (fun s : Str => s)
    ∧ (assetName (fun s : Str => s) (("https://x.com/a.png?width=200").toList) []
        ≠ assetName (fun s : Str => s) (("https://x.com/a.png?width=400").toList) []
      ∧ assetName (fun s : Str => s) (("https://x.com/a.png?width=200&token=aaa").toList) []
        = assetName (fun s : Str => s) (("https://x.com/a.png?width=200&sig=bbb").toList) []
      ∧ ∀ url : Str, (fun s : Str => s) (hashInput url)
          = assetName (fun s : Str => s) url []) := by
  refine ⟨fun a b h => h, ?_⟩
  obtain ⟨h1, h2, h3⟩ := width_parameter_discriminates (fun s : Str => s) (fun a b h => h)
  exact ⟨h1, h2, fun url => (h3 url).symm⟩

/-! ## C2 / C6: link classification -/

/-- C2 counterexample: an anchor whose URL resolves to a foreign domain is
skipped by the `continue` of line 406 with its `href` intact — contrary
to the claim, it is not deactivated (no href removal, no demotion). -/
theorem external_link_untouched_cex :
    link_to_subpages_anchor (("https://x.notion.site/Root-abc").toList)
        ⟨some (("https://example.com/a").toList), ("a").toList, [], none, [], false⟩
      = (⟨some (("https://example.com/a").toList), ("a").toList, [], none, [], false⟩, [])
    ∧ (⟨some (("https://example.com/a").toList), ("a").toList, [], none, [],
        false⟩ : Anchor).href ≠ none := by
  constructor <;> decide

/-- C2 (amended): classification is total and mutually exclusive over
FOUR outcomes, not three: anchors on a foreign domain are skipped
untouched; internal fragment anchors become in-page `#` links; internal
anchors inside a scroller are rewritten to the local filename and
collected; and the remaining internal anchors are the ones deactivated —
href removed, tag demoted to `span`, and every styled element (the anchor
and its styled descendants) forced to `cursor: default`. -/
theorem link_classification_total (selfUrl : Str) (a : Anchor) (h : Str)
    (ha : a.href = some h) :
    ([isExternalLink selfUrl h, isTocLink selfUrl h,
        isSubpageLink selfUrl h a.inScroller, isDeadLink selfUrl h a.inScroller].count true = 1)
    ∧ (isExternalLink selfUrl h = true → link_to_subpages_anchor selfUrl a = (a, []))
    ∧ (isTocLink selfUrl h = true → link_to_subpages_anchor selfUrl a =
        ({ a with href := some ('#' :: afterLastChar '#' (resolvedLinkUrl selfUrl h)),
                  classes := a.classes ++ [(("notionsnapshot-anchor-link").toList)] }, []))
    ∧ (isSubpageLink selfUrl h a.inScroller = true → link_to_subpages_anchor selfUrl a =
        ({ a with href := some (get_filename_from_url selfUrl (resolvedLinkUrl selfUrl h)) },
          [resolvedLinkUrl selfUrl h]))
    ∧ (isDeadLink selfUrl h a.inScroller = true → link_to_subpages_anchor selfUrl a =
        ({ a with href := none, tag := ("span").toList,
                  style := a.style.map setCursorDefault,
                  descStyles := a.descStyles.map setCursorDefault }, [])) := by
  cases hL : leads (notionDomain selfUrl) (resolvedLinkUrl selfUrl h) <;>
    cases hH : hasSub ['#'] (resolvedLinkUrl selfUrl h) <;>
      cases hS : a.inScroller <;>
        simp_all [link_to_subpages_anchor, resolvedLinkUrl, isExternalLink, isTocLink,
          isSubpageLink, isDeadLink, List.count_cons, List.count_nil]

theorem link_classification_total_witness :
    ((⟨some (("/Sub-2").toList), ("a").toList, [], none, [], true⟩ : Anchor).href
        = some (("/Sub-2").toList))
    ∧ (([isExternalLink (("https://x.notion.site/Root-abc").toList) (("/Sub-2").toList),
          isTocLink (("https://x.notion.site/Root-abc").toList) (("/Sub-2").toList),
          isSubpageLink (("https://x.notion.site/Root-abc").toList) (("/Sub-2").toList)
            (⟨some (("/Sub-2").toList), ("a").toList, [], none, [], true⟩ : Anchor).inScroller,
          isDeadLink (("https://x.notion.site/Root-abc").toList) (("/Sub-2").toList)
            (⟨some (("/Sub-2").toList), ("a").toList, [], none, [],
              true⟩ : Anchor).inScroller].count true = 1)
      ∧ (isExternalLink (("https://x.notion.site/Root-abc").toList) (("/Sub-2").toList) = true →
          link_to_subpages_anchor (("https://x.notion.site/Root-abc").toList)
            ⟨some (("/Sub-2").toList), ("a").toList, [], none, [], true⟩
          = (⟨some (("/Sub-2").toList), ("a").toList, [], none, [], true⟩, []))
      ∧ (isTocLink (("https://x.notion.site/Root-abc").toList) (("/Sub-2").toList) = true →
          link_to_subpages_anchor (("https://x.notion.site/Root-abc").toList)
            ⟨some (("/Sub-2").toList), ("a").toList, [], none, [], true⟩
          = ({ (⟨some (("/Sub-2").toList), ("a").toList, [], none, [], true⟩ : Anchor) with
                href := some ('#' :: afterLastChar '#'
                  (resolvedLinkUrl (("https://x.notion.site/Root-abc").toList)
                    (("/Sub-2").toList))),
                classes := (⟨some (("/Sub-2").toList), ("a").toList, [], none, [],
                    true⟩ : Anchor).classes
                  ++ [(("notionsnapshot-anchor-link").toList)] }, []))
      ∧ (isSubpageLink (("https://x.notion.site/Root-abc").toList) (("/Sub-2").toList)
            (⟨some (("/Sub-2").toList), ("a").toList, [], none, [],
              true⟩ : Anchor).inScroller = true →
          link_to_subpages_anchor (("https://x.notion.site/Root-abc").toList)
            ⟨some (("/Sub-2").toList), ("a").toList, [], none, [], true⟩
          = ({ (⟨some (("/Sub-2").toList), ("a").toList, [], none, [], true⟩ : Anchor) with
                href := some (get_filename_from_url (("https://x.notion.site/Root-abc").toList)
                  (resolvedLinkUrl (("https://x.notion.site/Root-abc").toList)
                    (("/Sub-2").toList))) },
              [resolvedLinkUrl (("https://x.notion.site/Root-abc").toList) (("/Sub-2").toList)]))
      ∧ (isDeadLink (("https://x.notion.site/Root-abc").toList) (("/Sub-2").toList)
            (⟨some (("/Sub-2").toList), ("a").toList, [], none, [],
              true⟩ : Anchor).inScroller = true →
          link_to_subpages_anchor (("https://x.notion.site/Root-abc").toList)
            ⟨some (("/Sub-2").toList), ("a").toList, [], none, [], true⟩
          = ({ (⟨some (("/Sub-2").toList), ("a").toList, [], none, [], true⟩ : Anchor) with
                href := none, tag := ("span").toList,
                style := (⟨some (("/Sub-2").toList), ("a").toList, [], none, [],
                    true⟩ : Anchor).style.map setCursorDefault,
                descStyles := (⟨some (("/Sub-2").toList), ("a").toList, [], none, [],
                    true⟩ : Anchor).descStyles.map setCursorDefault }, []))) :=
  ⟨rfl, link_classification_total (("https://x.notion.site/Root-abc").toList)
    ⟨some (("/Sub-2").toList), ("a").toList, [], none, [], true⟩ (("/Sub-2").toList) rfl⟩

/-- C6 counterexample: a fragment-bearing URL on a foreign domain hits the
external-domain `continue` first and is left untouched: the fragment rule
does not take priority over the external-domain rule. -/
theorem toc_not_before_external_cex :
    hasSub ['#'] (("https://ex.com/p#s").toList) = true
    ∧ link_to_subpages_anchor (("https://x.notion.site/Root-abc").toList)
        ⟨some (("https://ex.com/p#s").toList), ("a").toList, [], none, [], true⟩
      = (⟨some (("https://ex.com/p#s").toList), ("a").toList, [], none, [], true⟩, []) := by
  constructor <;> decide

/-- C6 (amended): among anchors whose resolved URL is on the workspace
domain, the fragment rule is applied first and wins over both the
internal-subpage rule and the deactivation fallback: the href is stripped
to the bare in-page fragment, the smooth-scroll marker class is added,
and no URL joins the discovered set — but the external-domain `continue`
runs before this rule, so it does not apply to foreign-domain URLs. -/
theorem toc_first_among_internal (selfUrl : Str) (a : Anchor) (h : Str)
    (ha : a.href = some h)
    (hd : leads (notionDomain selfUrl) (resolvedLinkUrl selfUrl h) = true)
    (hh : hasSub ['#'] (resolvedLinkUrl selfUrl h) = true) :
    link_to_subpages_anchor selfUrl a =
      ({ a with href := some ('#' :: afterLastChar '#' (resolvedLinkUrl selfUrl h)),
                classes := a.classes ++ [(("notionsnapshot-anchor-link").toList)] }, []) := by
  have hd' : leads (notionDomain selfUrl) (resolveHref (notionDomain selfUrl) h) = true := hd
  have hh' : hasSub ['#'] (resolveHref (notionDomain selfUrl) h) = true := hh
  simp [link_to_subpages_anchor, ha, resolvedLinkUrl, hd', hh']

theorem toc_first_among_internal_witness :
    ((⟨some (("https://x.notion.site/Page-1#sec").toList), ("a").toList, [], none, [],
        true⟩ : Anchor).href = some (("https://x.notion.site/Page-1#sec").toList))
    ∧ leads (notionDomain (("https://x.notion.site/Root-abc").toList))
        (resolvedLinkUrl (("https://x.notion.site/Root-abc").toList)
          (("https://x.notion.site/Page-1#sec").toList)) = true
    ∧ hasSub ['#'] (resolvedLinkUrl (("https://x.notion.site/Root-abc").toList)
        (("https://x.notion.site/Page-1#sec").toList)) = true
    ∧ link_to_subpages_anchor (("https://x.notion.site/Root-abc").toList)
        ⟨some (("https://x.notion.site/Page-1#sec").toList), ("a").toList, [], none, [], true⟩
      = ({ (⟨some (("https://x.notion.site/Page-1#sec").toList), ("a").toList, [], none, [],
              true⟩ : Anchor) with
            href := some ('#' :: afterLastChar '#'
              (resolvedLinkUrl (("https://x.notion.site/Root-abc").toList)
                (("https://x.notion.site/Page-1#sec").toList))),
            classes := (⟨some (("https://x.notion.site/Page-1#sec").toList), ("a").toList, [],
                none, [], true⟩ : Anchor).classes
              ++ [(("notionsnapshot-anchor-link").toList)] }, []) :=
  ⟨rfl, by decide, by decide,
    toc_first_among_internal (("https://x.notion.site/Root-abc").toList)
      ⟨some (("https://x.notion.site/Page-1#sec").toList), ("a").toList, [], none, [], true⟩
      (("https://x.notion.site/Page-1#sec").toList) rfl (by decide) (by decide)⟩

/-! ## C3: per-asset fetch failure degrades, it does not abort -/

theorem load_from_cache_shape (st : FMState) (fn : Str) (pr : Str × FMState)
    (h : load_from_cache st fn = some pr) : ∃ c, pr.1 = (("assets/").toList) ++ c := by
  unfold load_from_cache at h
  split at h <;> (simp only [] at h; split at h) <;>
    first
      | exact Option.noConfusion h
      | (cases h; exact ⟨_, rfl⟩)

theorem download_asset_shape (fetch : Str → Option (Option Str)) (hashFn : Str → Str)
    (st : FMState) (url fname0 : Str) :
    (∃ f, (download_asset fetch hashFn st url fname0).1 = (("assets/").toList) ++ f)
    ∨ (download_asset fetch hashFn st url fname0).1 = pyPathOfUrl url := by
  unfold download_asset
  simp only []
  repeat' split
  all_goals try exact Or.inl ⟨_, rfl⟩
  all_goals try exact Or.inr rfl
  all_goals
    rename_i hpr
    by_cases hca : st.cacheAssets = true
    · rw [if_pos hca] at hpr
      exact Or.inl (load_from_cache_shape _ _ _ hpr)
    · rw [if_neg hca] at hpr
      exact Option.noConfusion hpr

theorem imageStep_length (fetch : Str → Option (Option Str)) (hashFn : Str → Str)
    (s : List Str × FMState) (src : Str) :
    (imageStep fetch hashFn s src).1.length = s.1.length + 1 := by
  unfold imageStep
  simp only []
  split
  · simp
  · split <;> simp

theorem foldl_imageStep_length (fetch : Str → Option (Option Str)) (hashFn : Str → Str)
    (srcs : List Str) (acc : List Str × FMState) :
    ((srcs.foldl (imageStep fetch hashFn) acc).1).length = acc.1.length + srcs.length := by
  induction srcs generalizing acc with
  | nil => simp
  | cons s0 rest ih =>
    rw [List.foldl_cons, ih, imageStep_length]
    simp only [List.length_cons]
    omega

/-- C3 counterexample: with the fetch failing, `download_asset` on
`https://www.notion.so/image/img.png` returns
`https:/www.notion.so/image/img.png` — the `str(Path(url))` of line 106
collapses the double slash, so the rewritten reference is NOT the
original absolute URL unchanged. -/
theorem failure_url_not_unchanged_cex :
    (download_asset (fun _ => none) (fun s => s) ⟨[], [], true⟩
        (("https://www.notion.so/image/img.png").toList) []).1
      = ("https:/www.notion.so/image/img.png").toList
    ∧ (download_asset (fun _ => none) (fun s => s) ⟨[], [], true⟩
        (("https://www.notion.so/image/img.png").toList) []).1
      ≠ ("https://www.notion.so/image/img.png").toList := by
  constructor <;> decide

/-- C3 (amended): a fetch failure for an ordinary asset never aborts the
run — `download_asset` returns normally with the file-system state
untouched, rewriting the reference to the original URL passed through
path normalization (consecutive slashes collapsed), not to the URL
byte-for-byte; image localization preserves the number of image
references, and every rewritten reference is either a local
`assets/...` path or the path-normalized original URL. -/
theorem download_asset_failure_degrades (fetch fetch2 : Str → Option (Option Str))
    (hashFn hashFn2 : Str → Str) (st st2 st3 : FMState) (url url2 fname0 : Str)
    (srcs : List Str)
    (hglob : globDotMatches (assetName hashFn url []) st.assets = [])
    (hcache : (if st.cacheAssets then load_from_cache st (assetName hashFn url []) else none)
      = none)
    (hfetch : fetch url = none) :
    download_asset fetch hashFn st url [] = (pyPathOfUrl url, st, true)
    ∧ (download_images fetch2 hashFn2 st2 srcs).1.length = srcs.length
    ∧ ((∃ f, (download_asset fetch2 hashFn2 st3 url2 fname0).1 = (("assets/").toList) ++ f)
        ∨ (download_asset fetch2 hashFn2 st3 url2 fname0).1 = pyPathOfUrl url2) := by
  refine ⟨?_, ?_, download_asset_shape fetch2 hashFn2 st3 url2 fname0⟩
  · simp only [download_asset, hglob, hcache, hfetch]
  · unfold download_images
    rw [foldl_imageStep_length]
    simp

theorem download_asset_failure_degrades_witness :
    globDotMatches (assetName (fun s : Str => s) (("https://www.notion.so/i/a.png").toList) [])
        (⟨[], [], false⟩ : FMState).assets = []
    ∧ ((if (⟨[], [], false⟩ : FMState).cacheAssets then
          load_from_cache ⟨[], [], false⟩
            (assetName (fun s : Str => s) (("https://www.notion.so/i/a.png").toList) [])
        else none) = none)
    ∧ ((fun _ : Str => (none : Option (Option Str))) (("https://www.notion.so/i/a.png").toList)
        = none)
    ∧ (download_asset (fun _ => none) (fun s : Str => s) ⟨[], [], false⟩
          (("https://www.notion.so/i/a.png").toList) []
        = (pyPathOfUrl (("https://www.notion.so/i/a.png").toList), ⟨[], [], false⟩, true)
      ∧ (download_images (fun _ => none) (fun s : Str => s) ⟨[], [], false⟩
          [(("https://www.notion.so/i/a.png").toList), (("data:image/png;base64,xy").toList)]).1.length
        = [(("https://www.notion.so/i/a.png").toList), (("data:image/png;base64,xy").toList)].length
      ∧ ((∃ f, (download_asset (fun _ => none) (fun s : Str => s) ⟨[], [], false⟩
            (("https://www.notion.so/i/a.png").toList) []).1 = (("assets/").toList) ++ f)
          ∨ (download_asset (fun _ => none) (fun s : Str => s) ⟨[], [], false⟩
              (("https://www.notion.so/i/a.png").toList) []).1
            = pyPathOfUrl (("https://www.notion.so/i/a.png").toList))) :=
  ⟨by decide, by decide, rfl,
    download_asset_failure_degrades (fun _ => none) (fun _ => none) (fun s => s) (fun s => s)
      ⟨[], [], false⟩ ⟨[], [], false⟩ ⟨[], [], false⟩
      (("https://www.notion.so/i/a.png").toList) (("https://www.notion.so/i/a.png").toList) []
      [(("https://www.notion.so/i/a.png").toList), (("data:image/png;base64,xy").toList)]
      (by decide) (by decide) rfl⟩

/-! ## C5: parse failure is fatal, font fetch failure is not -/

/-- C5 counterexample: a fetch failure while localizing a font file is NOT
fatal to the run — with every fetch failing, the font-face rule is still
rewritten (to the path-normalized remote URL) and processing returns
`ok`, exactly like an ordinary degraded asset. -/
theorem font_fetch_failure_not_fatal_cex :
    process_font_face_rule (fun _ => none) (fun s => s) ⟨[], [], false⟩
        (("/_assets/app.css").toList) (("url(fonts/a.woff2)").toList)
      = Except.ok ((("url(https:/www.notion.so/_assets/fonts/a.woff2)").toList),
          (⟨[], [], false⟩ : FMState)) := by
  rfl

/-- C5 (amended): in the font-face handling of `_download_stylesheets`,
only a parse failure of the rule's source is fatal — the `ValueError` of
line 332 propagates and terminates the run; once the source parses, the
rule is always rewritten successfully, because a fetch failure for the
font file is swallowed by `download_asset` and merely degrades that one
reference. -/
theorem font_face_error_modes (fetch : Str → Option (Option Str)) (hashFn : Str → Str)
    (st st2 : FMState) (linkHref linkHref2 srcVal srcVal2 g2 : Str)
    (hparse : fontUrlMatch srcVal = none)
    (hparse2 : fontUrlMatch srcVal2 = some g2) :
    process_font_face_rule fetch hashFn st linkHref srcVal
      = Except.error (("Could not parse stylesheet source of font face rule").toList)
    ∧ ∃ pr : Str × FMState,
        process_font_face_rule fetch hashFn st2 linkHref2 srcVal2 = Except.ok pr := by
  constructor
  · simp [process_font_face_rule, hparse]
  · unfold process_font_face_rule
    rw [hparse2]
    exact ⟨_, rfl⟩

theorem font_face_error_modes_witness :
    fontUrlMatch (("local(X)").toList) = none
    ∧ fontUrlMatch (("url(fonts/a.woff2)").toList) = some (("fonts/a.woff2").toList)
    ∧ (process_font_face_rule (fun _ => none) (fun s : Str => s) ⟨[], [], false⟩
          (("/_assets/app.css").toList) (("local(X)").toList)
        = Except.error (("Could not parse stylesheet source of font face rule").toList)
      ∧ ∃ pr : Str × FMState,
          process_font_face_rule (fun _ => none) (fun s : Str => s) ⟨[], [], false⟩
            (("/_assets/app.css").toList) (("url(fonts/a.woff2)").toList) = Except.ok pr) :=
  ⟨by decide, by decide,
    font_face_error_modes (fun _ => none) (fun s => s) ⟨[], [], false⟩ ⟨[], [], false⟩
      (("/_assets/app.css").toList) (("/_assets/app.css").toList)
      (("local(X)").toList) (("url(fonts/a.woff2)").toList) (("fonts/a.woff2").toList)
      (by decide) (by decide)⟩

/-! ## C7: idempotence of asset localization -/

theorem pathSuffix_dot_shape (s : Str) (h : pathSuffix s ≠ []) :
    leads ['.'] (pathSuffix s) = true ∧ pathSuffix s ≠ ['.'] ∧ ('/' : Char) ∉ pathSuffix s := by
  obtain ⟨r, hsr, hrne, hsub⟩ := suffixChars_shape (afterLastChar '/' s) h
  refine ⟨?_, ?_, fun hmem => afterLastChar_not_mem '/' s (hsub '/' hmem)⟩
  · show leads ['.'] (suffixChars (afterLastChar '/' s)) = true
    rw [hsr]
    simp [leads]
  · show suffixChars (afterLastChar '/' s) ≠ ['.']
    rw [hsr]
    simpa using hrne

theorem with_suffix_fresh (fname sfx : Str)
    (hname : pathSuffix fname = [])
    (hnoslash : ('/' : Char) ∉ fname)
    (hlead : leads ['.'] sfx = true) (hne1 : sfx ≠ ['.']) (hns : ('/' : Char) ∉ sfx) :
    with_suffix? fname sfx = some (fname ++ sfx) := by
  have hafter : afterLastChar '/' fname = fname := afterLastChar_of_not_mem _ _ hnoslash
  have hsuffname : suffixChars fname = [] := by
    have hp : suffixChars (afterLastChar '/' fname) = [] := hname
    rwa [hafter] at hp
  unfold with_suffix?
  rw [if_pos ⟨hlead, hne1, hns⟩]
  simp [hafter, stemOf, hsuffname]

theorem download_asset_fresh (fetch : Str → Option (Option Str)) (hashFn : Str → Str)
    (url : Str) (ca : Bool) (ct : Option Str)
    (hf : fetch url = some ct)
    (hname : pathSuffix (assetName hashFn url []) = [])
    (hnoslash : ('/' : Char) ∉ assetName hashFn url [])
    (husfx : pathSuffix (urlparse url).path ≠ [])
    (hq : findSub (("%3f").toList) (toLowerStr (pathSuffix (urlparse url).path)) = none) :
    download_asset fetch hashFn ⟨[], [], ca⟩ url []
      = ((("assets/").toList) ++ (assetName hashFn url [] ++ pathSuffix (urlparse url).path),
          ⟨[assetName hashFn url [] ++ pathSuffix (urlparse url).path], [], ca⟩, true) := by
  obtain ⟨hlead, hne1, hns⟩ := pathSuffix_dot_shape (urlparse url).path husfx
  have hws : with_suffix? (assetName hashFn url []) (pathSuffix (urlparse url).path)
      = some (assetName hashFn url [] ++ pathSuffix (urlparse url).path) :=
    with_suffix_fresh _ _ hname hnoslash hlead hne1 hns
  have hut : urlSuffixTrim url = pathSuffix (urlparse url).path := by
    unfold urlSuffixTrim
    simp only []
    rw [hq]
  have hcc : (if (⟨[], [], ca⟩ : FMState).cacheAssets then
      load_from_cache ⟨[], [], ca⟩ (assetName hashFn url []) else none) = none := by
    cases ca
    · rfl
    · show load_from_cache ⟨[], [], true⟩ (assetName hashFn url []) = none
      unfold load_from_cache
      rw [if_neg (by simp [hname])]
      rfl
  unfold download_asset
  simp only [globDotMatches, List.filter_nil, hcc, hf, hname, husfx, hut, hws, addFile]
  simp [husfx]

theorem download_asset_glob_hit (fetch : Str → Option (Option Str)) (hashFn : Str → Str)
    (st : FMState) (url fname0 f : Str) (rest : List Str)
    (hglob : globDotMatches (assetName hashFn url fname0) st.assets = f :: rest) :
    download_asset fetch hashFn st url fname0 = ((("assets/").toList) ++ f, st, false) := by
  unfold download_asset
  simp only []
  rw [hglob]

/-- C7 counterexample: with the filename hint `a.woff` (the shape font
localization passes), the stored file `assets/a.woff` does not match the
glob pattern `a.woff.*` of line 71, so a second call for the same URL and
hint performs a second fetch (it does return the same path, overwriting
the same file). -/
theorem hinted_asset_refetches_cex :
    (download_asset (fun _ => some none) (fun s => s)
        (download_asset (fun _ => some none) (fun s => s) ⟨[], [], true⟩
          (("https://f.com/a.woff").toList) (("a.woff").toList)).2.1
        (("https://f.com/a.woff").toList) (("a.woff").toList)).2.2 = true
    ∧ (download_asset (fun _ => some none) (fun s => s)
        (download_asset (fun _ => some none) (fun s => s) ⟨[], [], true⟩
          (("https://f.com/a.woff").toList) (("a.woff").toList)).2.1
        (("https://f.com/a.woff").toList) (("a.woff").toList)).1
      = (download_asset (fun _ => some none) (fun s => s) ⟨[], [], true⟩
          (("https://f.com/a.woff").toList) (("a.woff").toList)).1 := by
  constructor <;> decide

/-- C7 (amended): asset localization is idempotent within one run for
hash-named (hintless) assets: starting from an empty output directory,
the first `download_asset` call fetches and stores the asset under the
hash name plus the URL-path suffix, and a second call with the same URL
returns the same local path, leaves the file system unchanged, and
performs no fetch; for hint names that already carry an extension the
second call re-fetches (see the counterexample). -/
theorem download_asset_idempotent_hashname (fetch : Str → Option (Option Str))
    (hashFn : Str → Str) (url : Str) (ca : Bool) (ct : Option Str)
    (hf : fetch url = some ct)
    (hname : pathSuffix (assetName hashFn url []) = [])
    (hnoslash : ('/' : Char) ∉ assetName hashFn url [])
    (husfx : pathSuffix (urlparse url).path ≠ [])
    (hq : findSub (("%3f").toList) (toLowerStr (pathSuffix (urlparse url).path)) = none) :
    download_asset fetch hashFn ⟨[], [], ca⟩ url []
      = ((("assets/").toList) ++ (assetName hashFn url [] ++ pathSuffix (urlparse url).path),
          ⟨[assetName hashFn url [] ++ pathSuffix (urlparse url).path], [], ca⟩, true)
    ∧ download_asset fetch hashFn
        (download_asset fetch hashFn ⟨[], [], ca⟩ url []).2.1 url []
      = ((download_asset fetch hashFn ⟨[], [], ca⟩ url []).1,
          (download_asset fetch hashFn ⟨[], [], ca⟩ url []).2.1, false) := by
  have h1 := download_asset_fresh fetch hashFn url ca ct hf hname hnoslash husfx hq
  refine ⟨h1, ?_⟩
  have hlead2 : leads ((assetName hashFn url []) ++ ['.'])
      ((assetName hashFn url []) ++ pathSuffix (urlparse url).path) = true := by
    rw [leads_append]
    exact (pathSuffix_dot_shape (urlparse url).path husfx).1
  have hglob2 : globDotMatches (assetName hashFn url [])
      ([assetName hashFn url [] ++ pathSuffix (urlparse url).path] : List Str)
      = [assetName hashFn url [] ++ pathSuffix (urlparse url).path] := by
    simp [globDotMatches, hlead2]
  rw [h1]
  exact download_asset_glob_hit fetch hashFn
    ⟨[assetName hashFn url [] ++ pathSuffix (urlparse url).path], [], ca⟩ url [] _ [] hglob2

theorem download_asset_idempotent_hashname_witness :
    ((fun _ : Str => (some none : Option (Option Str))) (("https://x.com/img.png").toList)
        = some none)
    ∧ pathSuffix (assetName (fun _ : Str => ("deadbeef").toList)
        (("https://x.com/img.png").toList) []) = []
    ∧ (('/' : Char) ∉ assetName (fun _ : Str => ("deadbeef").toList)
        (("https://x.com/img.png").toList) [])
    ∧ pathSuffix (urlparse (("https://x.com/img.png").toList)).path ≠ []
    ∧ findSub (("%3f").toList)
        (toLowerStr (pathSuffix (urlparse (("https://x.com/img.png").toList)).path)) = none
    ∧ (download_asset (fun _ => some none) (fun _ : Str => ("deadbeef").toList)
          ⟨[], [], false⟩ (("https://x.com/img.png").toList) []
        = ((("assets/").toList)
            ++ (assetName (fun _ : Str => ("deadbeef").toList)
                  (("https://x.com/img.png").toList) []
                ++ pathSuffix (urlparse (("https://x.com/img.png").toList)).path),
            ⟨[assetName (fun _ : Str => ("deadbeef").toList) (("https://x.com/img.png").toList) []
                ++ pathSuffix (urlparse (("https://x.com/img.png").toList)).path], [], false⟩,
            true)
      ∧ download_asset (fun _ => some none) (fun _ : Str => ("deadbeef").toList)
          (download_asset (fun _ => some none) (fun _ : Str => ("deadbeef").toList)
            ⟨[], [], false⟩ (("https://x.com/img.png").toList) []).2.1
          (("https://x.com/img.png").toList) []
        = ((download_asset (fun _ => some none) (fun _ : Str => ("deadbeef").toList)
              ⟨[], [], false⟩ (("https://x.com/img.png").toList) []).1,
            (download_asset (fun _ => some none) (fun _ : Str => ("deadbeef").toList)
              ⟨[], [], false⟩ (("https://x.com/img.png").toList) []).2.1, false)) :=
  ⟨rfl, by decide, by decide, by decide, by decide,
    download_asset_idempotent_hashname (fun _ => some none)
      (fun _ : Str => ("deadbeef").toList) (("https://x.com/img.png").toList) false none
      rfl (by decide) (by decide) (by decide) (by decide)⟩

/-! ## C4: disclosure expansion, timeouts and termination -/

theorem expandBlock_id_map (w : List ToggleBlock) (bid : Nat) :
    (expandBlock w bid).map (fun b => b.id) = w.map (fun b => b.id) := by
  unfold expandBlock
  rw [List.map_map]
  apply List.map_congr_left
  intro b _
  simp only [Function.comp_apply]
  split <;> rfl

theorem expandBlock_fields (w : List ToggleBlock) (bid : Nat) (b : ToggleBlock)
    (hb : b ∈ expandBlock w bid) :
    ∃ b0 ∈ w, b.id = b0.id ∧ b.timesOut = b0.timesOut := by
  unfold expandBlock at hb
  obtain ⟨b0, hb0, rfl⟩ := List.mem_map.mp hb
  refine ⟨b0, hb0, ?_⟩
  split <;> simp

theorem passStep_foldl_spec (l : List ToggleBlock) (w : List ToggleBlock)
    (acc clicks : List Nat) (hto : ∀ b ∈ l, b.timesOut = false) :
    (l.foldl passStep (w, acc, clicks)).2.1 = acc ++ l.map (fun b => b.id)
    ∧ (l.foldl passStep (w, acc, clicks)).2.2
        = clicks ++ (l.filter (fun b => b.expanded = false)).map (fun b => b.id)
    ∧ ((l.foldl passStep (w, acc, clicks)).1).map (fun b => b.id) = w.map (fun b => b.id) := by
  induction l generalizing w acc clicks with
  | nil => simp
  | cons b bs ih =>
    have hbto : b.timesOut = false := hto b (List.mem_cons_self b bs)
    have hbs : ∀ x ∈ bs, x.timesOut = false := fun x hx => hto x (List.mem_cons_of_mem b hx)
    rw [List.foldl_cons]
    cases hexp : b.expanded
    · have hstep : passStep (w, acc, clicks) b
          = (expandBlock w b.id, acc ++ [b.id], clicks ++ [b.id]) := by
        simp [passStep, hexp, hbto]
      rw [hstep]
      obtain ⟨ha, hc, hw⟩ := ih (expandBlock w b.id) (acc ++ [b.id]) (clicks ++ [b.id]) hbs
      refine ⟨?_, ?_, ?_⟩
      · rw [ha]
        simp
      · rw [hc]
        simp [hexp]
      · rw [hw, expandBlock_id_map]
    · have hstep : passStep (w, acc, clicks) b = (w, acc ++ [b.id], clicks) := by
        simp [passStep, hexp]
      rw [hstep]
      obtain ⟨ha, hc, hw⟩ := ih w (acc ++ [b.id]) clicks hbs
      refine ⟨?_, ?_, ?_⟩
      · rw [ha]
        simp
      · rw [hc]
        simp [hexp]
      · exact hw

theorem passStep_foldl_timesOut (l : List ToggleBlock) (w : List ToggleBlock)
    (acc clicks : List Nat) (hw : ∀ b ∈ w, b.timesOut = false) :
    ∀ b ∈ (l.foldl passStep (w, acc, clicks)).1, b.timesOut = false := by
  induction l generalizing w acc clicks with
  | nil => simpa
  | cons b bs ih =>
    rw [List.foldl_cons]
    have hw' : ∀ x ∈ (passStep (w, acc, clicks) b).1, x.timesOut = false := by
      unfold passStep
      split
      · simpa using hw
      · split
        · simpa using hw
        · intro x hx
          obtain ⟨b0, hb0, _, hto⟩ := expandBlock_fields _ _ _ hx
          rw [hto]
          exact hw b0 hb0
    exact ih _ _ _ hw'

theorem worklist_ids_nodup (w : List ToggleBlock) (acc : List Nat)
    (h : (w.map (fun b => b.id)).Nodup) :
    (((get_toggle_blocks w).filter (fun b => ¬ acc.contains b.id)).map
      (fun b => b.id)).Nodup := by
  have hsub : ((get_toggle_blocks w).filter (fun b => ¬ acc.contains b.id)).Sublist w :=
    (List.filter_sublist _).trans (List.filter_sublist _)
  exact h.sublist (hsub.map _)

theorem worklist_mem (w : List ToggleBlock) (acc : List Nat) (b : ToggleBlock)
    (hb : b ∈ (get_toggle_blocks w).filter (fun b => ¬ acc.contains b.id)) :
    b ∈ w ∧ b.id ∉ acc := by
  rw [List.mem_filter] at hb
  obtain ⟨hb1, hb2⟩ := hb
  refine ⟨(List.mem_filter.mp hb1).1, ?_⟩
  intro hmem
  simp only [decide_eq_true_eq] at hb2
  exact hb2 (by simpa using hmem)

theorem expand_toggle_blocks_term (fuel : Nat) (w : List ToggleBlock) (acc clicks : List Nat)
    (hids : (w.map (fun b => b.id)).Nodup)
    (hto : ∀ b ∈ w, b.timesOut = false)
    (haccN : acc.Nodup) (hclN : clicks.Nodup)
    (hcl : ∀ c ∈ clicks, c ∈ acc)
    (hacc : ∀ a ∈ acc, a ∈ w.map (fun b => b.id))
    (hfuel : w.length + 1 ≤ fuel + acc.length) :
    ∃ r, expand_toggle_blocks fuel w acc clicks = some r
      ∧ r.2.2.Nodup
      ∧ (∀ b ∈ get_toggle_blocks r.1, r.2.1.contains b.id = true) := by
  induction fuel generalizing w acc clicks with
  | zero =>
    have hle : acc.length ≤ (w.map (fun b => b.id)).length := (haccN.subperm hacc).length_le
    rw [List.length_map] at hle
    omega
  | succ fuel ih =>
    have hLto : ∀ b ∈ (get_toggle_blocks w).filter (fun b => ¬ acc.contains b.id),
        b.timesOut = false := fun b hb => hto b (worklist_mem w acc b hb).1
    obtain ⟨ha, hc, hwmap⟩ := passStep_foldl_spec
      ((get_toggle_blocks w).filter (fun b => ¬ acc.contains b.id)) w acc clicks hLto
    have hpass1 : (expand_pass w acc clicks).2.1
        = acc ++ ((get_toggle_blocks w).filter (fun b => ¬ acc.contains b.id)).map
            (fun b => b.id) := ha
    have hpass2 : (expand_pass w acc clicks).2.2
        = clicks ++ (((get_toggle_blocks w).filter (fun b => ¬ acc.contains b.id)).filter
            (fun b => b.expanded = false)).map (fun b => b.id) := hc
    have hpassw : ((expand_pass w acc clicks).1).map (fun b => b.id)
        = w.map (fun b => b.id) := hwmap
    have hdisj : ∀ a ∈ acc,
        a ∉ ((get_toggle_blocks w).filter (fun b => ¬ acc.contains b.id)).map
          (fun b => b.id) := by
      intro a haa hmem
      obtain ⟨b, hb, rfl⟩ := List.mem_map.mp hmem
      exact (worklist_mem w acc b hb).2 haa
    have haccN' : ((expand_pass w acc clicks).2.1).Nodup := by
      rw [hpass1]
      exact haccN.append (worklist_ids_nodup w acc hids) hdisj
    have hclN' : ((expand_pass w acc clicks).2.2).Nodup := by
      rw [hpass2]
      refine hclN.append ?_ ?_
      · refine (worklist_ids_nodup w acc hids).sublist ?_
        exact (List.filter_sublist _).map _
      · intro c hcc hmem
        obtain ⟨b, hb, rfl⟩ := List.mem_map.mp hmem
        have hbL := List.mem_of_mem_filter hb
        exact (worklist_mem w acc b hbL).2 (hcl _ hcc)
    have hcl' : ∀ c ∈ (expand_pass w acc clicks).2.2, c ∈ (expand_pass w acc clicks).2.1 := by
      intro c hcc
      rw [hpass2] at hcc
      rw [hpass1]
      rcases List.mem_append.mp hcc with hcc | hcc
      · exact List.mem_append.mpr (Or.inl (hcl _ hcc))
      · obtain ⟨b, hb, rfl⟩ := List.mem_map.mp hcc
        exact List.mem_append.mpr (Or.inr (List.mem_map_of_mem _ (List.mem_of_mem_filter hb)))
    have hacc' : ∀ a ∈ (expand_pass w acc clicks).2.1,
        a ∈ ((expand_pass w acc clicks).1).map (fun b => b.id) := by
      intro a haa
      rw [hpass1] at haa
      rw [hpassw]
      rcases List.mem_append.mp haa with haa | haa
      · exact hacc _ haa
      · obtain ⟨b, hb, rfl⟩ := List.mem_map.mp haa
        exact List.mem_map_of_mem _ (worklist_mem w acc b hb).1
    have hids' : (((expand_pass w acc clicks).1).map (fun b => b.id)).Nodup := by
      rw [hpassw]
      exact hids
    have hto' : ∀ b ∈ (expand_pass w acc clicks).1, b.timesOut = false :=
      passStep_foldl_timesOut _ w acc clicks hto
    have hwlen : (expand_pass w acc clicks).1.length = w.length := by
      have hlen := congrArg List.length hpassw
      simpa using hlen
    unfold expand_toggle_blocks
    by_cases hEmp : ((get_toggle_blocks (expand_pass w acc clicks).1).filter
        (fun b => ¬ (expand_pass w acc clicks).2.1.contains b.id)).isEmpty = true
    · refine ⟨expand_pass w acc clicks, ?_, hclN', ?_⟩
      · simp only [hEmp, if_pos]
      · intro b hb
        rw [List.isEmpty_iff] at hEmp
        by_contra hnc
        have hbmem : b ∈ (get_toggle_blocks (expand_pass w acc clicks).1).filter
            (fun b => ¬ (expand_pass w acc clicks).2.1.contains b.id) := by
          rw [List.mem_filter]
          exact ⟨hb, by simpa using hnc⟩
        rw [hEmp] at hbmem
        exact List.not_mem_nil b hbmem
    · rw [if_neg hEmp]
      have hLne : (get_toggle_blocks w).filter (fun b => ¬ acc.contains b.id) ≠ [] := by
        intro hnil
        apply hEmp
        have hzero : expand_pass w acc clicks = (w, acc, clicks) := by
          unfold expand_pass
          rw [hnil]
          rfl
        rw [hzero]
        simpa using congrArg List.isEmpty hnil
      have hlen1 : 1 ≤ ((get_toggle_blocks w).filter
          (fun b => ¬ acc.contains b.id)).length := by
        cases hL : (get_toggle_blocks w).filter (fun b => ¬ acc.contains b.id) with
        | nil => exact absurd hL hLne
        | cons x xs => simp
      have hfuel' : (expand_pass w acc clicks).1.length + 1
          ≤ fuel + ((expand_pass w acc clicks).2.1).length := by
        rw [hwlen, hpass1]
        rw [List.length_append, List.length_map]
        omega
      exact ih _ _ _ hids' hto' haccN' hclN' hcl' hacc' hfuel'

/-- C4 counterexample: a collapsed widget whose expansion wait times out
is NOT recorded as expanded — the `continue` of line 250 skips the
`expanded_toggle_blocks.append` — so the pass records nothing, the same
widget is re-activated on the next pass (clicked twice after two passes),
and the recursion never reaches a pass without unrecorded widgets. -/
theorem timeout_not_recorded_cex :
    (expand_pass [⟨0, none, false, true⟩] [] []).2.1 = []
    ∧ (expand_pass [⟨0, none, false, true⟩] [] []).2.2 = [0]
    ∧ expand_toggle_blocks 5 [⟨0, none, false, true⟩] [] [] = none
    ∧ (expand_pass (expand_pass [⟨0, none, false, true⟩] [] []).1
        (expand_pass [⟨0, none, false, true⟩] [] []).2.1
        (expand_pass [⟨0, none, false, true⟩] [] []).2.2).2.2 = [0, 0] := by
  refine ⟨?_, ?_, ?_, ?_⟩ <;> decide

/-- C4 (amended): a widget whose expansion wait times out is logged and
skipped WITHOUT being recorded as expanded, so it is re-activated on
every later pass and a persistently timing-out widget prevents
termination; when no widget times out, the recursive expansion terminates
within one pass per widget, every widget discovered in the final document
is recorded as expanded, and no widget is activated (clicked) more than
once. -/
theorem expand_all_no_timeout_terminates (w : List ToggleBlock)
    (hids : (w.map (fun b => b.id)).Nodup)
    (hto : ∀ b ∈ w, b.timesOut = false) :
    ∃ r, expand_toggle_blocks (w.length + 1) w [] [] = some r
      ∧ r.2.2.Nodup
      ∧ (∀ b ∈ get_toggle_blocks r.1, r.2.1.contains b.id = true) :=
  expand_toggle_blocks_term (w.length + 1) w [] [] hids hto List.nodup_nil List.nodup_nil
    (fun c hc => absurd hc (List.not_mem_nil c))
    (fun a ha => absurd ha (List.not_mem_nil a)) (by simp)

theorem expand_all_no_timeout_terminates_witness :
    (([⟨0, none, false, false⟩, ⟨1, some 0, false, false⟩] : List ToggleBlock).map
      (fun b => b.id)).Nodup
    ∧ (∀ b ∈ ([⟨0, none, false, false⟩, ⟨1, some 0, false, false⟩] : List ToggleBlock),
        b.timesOut = false)
    ∧ ∃ r, expand_toggle_blocks
          (([⟨0, none, false, false⟩, ⟨1, some 0, false, false⟩] : List ToggleBlock).length + 1)
          [⟨0, none, false, false⟩, ⟨1, some 0, false, false⟩] [] [] = some r
        ∧ r.2.2.Nodup
        ∧ (∀ b ∈ get_toggle_blocks r.1, r.2.1.contains b.id = true) :=
  ⟨by decide, by decide,
    expand_all_no_timeout_terminates [⟨0, none, false, false⟩, ⟨1, some 0, false, false⟩]
      (by decide) (by decide)⟩

end NotionSnapshot
